import Mathlib

/-!
Verification of the wikrev change-aggregation engine (`src/wikrev/git_changes.py`)
against its natural-language specification.

The Python source is shallowly embedded: pure functions become Lean functions on
`String` / `List Char`; the external `git` process (the Version-Control Gateway)
becomes an explicit record of query-response functions; fallible calls return
`Option`.  Timestamps are carried as their ISO-8601 text (the engine never
computes with them, it only stores and copies them).
-/

namespace Wikrev

/-! ### String primitives modelling Python `str` methods -/

/-- Characters stripped by Python `str.strip()` (ASCII whitespace; the engine
only ever strips git output, which is ASCII). -/
def pyIsSpace (c : Char) : Bool :=
  c == ' ' || c == '\t' || c == '\n' || c == '\r' || c == '\x0b' || c == '\x0c'

/-- Python `str.strip()` on the character list of a string. -/
def stripData (cs : List Char) : List Char :=
  ((cs.dropWhile pyIsSpace).reverse.dropWhile pyIsSpace).reverse

/-- Python `str.strip()`. -/
def pyStrip (s : String) : String := ⟨stripData s.data⟩

/-- Python `str.rstrip("/")`: drop trailing slashes. -/
def rstripSlash (cs : List Char) : List Char :=
  (cs.reverse.dropWhile (· == '/')).reverse

/-- Python `path.replace("\\", "/")`: normalize separators (character-wise,
since both pattern and replacement are single characters). -/
def normSlashes (cs : List Char) : List Char :=
  cs.map (fun c => if c == '\\' then '/' else c)

/-- Python `str.splitlines()` (no keepends) restricted to `\n`, the only line
terminator occurring in git output (Python also splits on `\r`, `\v`, …,
which never appear in the text this engine splits). -/
def splitLinesAux (cur : List Char) : List Char → List (List Char)
  | [] => if cur.isEmpty then [] else [cur.reverse]
  | c :: rest =>
    if c = '\n' then cur.reverse :: splitLinesAux [] rest
    else splitLinesAux (c :: cur) rest

/-- Python `str.splitlines()` returning strings. -/
def pySplitlines (s : String) : List String :=
  (splitLinesAux [] s.data).map fun cs => ⟨cs⟩

/-- Python `str.splitlines(keepends=True)`, same boundary restriction. -/
def splitLinesKeepAux (cur : List Char) : List Char → List (List Char)
  | [] => if cur.isEmpty then [] else [cur.reverse]
  | c :: rest =>
    if c = '\n' then ('\n' :: cur).reverse :: splitLinesKeepAux [] rest
    else splitLinesKeepAux (c :: cur) rest

/-- Python substring containment `needle in hay`. -/
def isSubstring (needle : List Char) : List Char → Bool
  | [] => needle.isEmpty
  | c :: rest => needle.isPrefixOf (c :: rest) || isSubstring needle rest

/-- Python `"\n".join(...)`-style join. -/
def pyJoin (sep : String) : List String → String
  | [] => ""
  | [x] => x
  | x :: xs => x ++ sep ++ pyJoin sep xs

/-! ### `fnmatch.fnmatch` — Python glob matching

The pattern is tokenized (star, single-char wildcard, literal, bracket class)
and matched against the whole name, exactly as `fnmatch.translate` produces a
regex that is full-matched.  POSIX case behaviour (no case folding). -/

inductive GlobTok where
  | star
  | anyChar
  | lit (c : Char)
  | cls (neg : Bool) (body : List Char)
deriving DecidableEq

/-- Scan for the closing `]` of a bracket class, accumulating body characters. -/
def scanClass (acc : List Char) : List Char → Option (List Char × List Char)
  | [] => none
  | ']' :: rest => some (acc.reverse, rest)
  | c :: rest => scanClass (c :: acc) rest

/-- Split a bracket class right after `[`, following `fnmatch.translate`:
a leading `!` negates; a `]` directly after (the possible `!`) is a literal
member; an unterminated class makes the `[` a literal. -/
def splitClass (cs : List Char) : Option (Bool × List Char × List Char) :=
  match cs with
  | '!' :: ']' :: rest => (scanClass [']'] rest).map fun p => (true, p.1, p.2)
  | '!' :: rest => (scanClass [] rest).map fun p => (true, p.1, p.2)
  | ']' :: rest => (scanClass [']'] rest).map fun p => (false, p.1, p.2)
  | rest => (scanClass [] rest).map fun p => (false, p.1, p.2)

/-- Tokenize a glob pattern.  Fuel is the pattern length; every step consumes
at least one character, so the fuel never runs out on the actual argument. -/
def tokenizeFuel : Nat → List Char → List GlobTok
  | 0, _ => []
  | _ + 1, [] => []
  | n + 1, '*' :: rest => .star :: tokenizeFuel n rest
  | n + 1, '?' :: rest => .anyChar :: tokenizeFuel n rest
  | n + 1, '[' :: rest =>
    match splitClass rest with
    | some (neg, body, rest2) => .cls neg body :: tokenizeFuel n rest2
    | none => .lit '[' :: tokenizeFuel n rest
  | n + 1, c :: rest => .lit c :: tokenizeFuel n rest

def tokenize (cs : List Char) : List GlobTok := tokenizeFuel cs.length cs

/-- Membership of a character in a bracket-class body, with `a-b` ranges and
literal handling of a trailing or leading `-`. -/
def classMatch : List Char → Char → Bool
  | [], _ => false
  | a :: '-' :: b :: rest, c => (a ≤ c && c ≤ b) || classMatch rest c
  | a :: rest, c => (a == c) || classMatch rest c

/-- Match a token list against a name, full-match semantics (`*` crosses `/`,
as Python `fnmatch` does).  Fuel bounds the recursion; each call shrinks
`tokens.length + name.length`, so `tokens.length + name.length + 1` suffices. -/
def globMatchFuel : Nat → List GlobTok → List Char → Bool
  | 0, _, _ => false
  | _ + 1, [], [] => true
  | _ + 1, [], _ :: _ => false
  | n + 1, .star :: ps, s =>
    globMatchFuel n ps s ||
      (match s with
       | [] => false
       | _ :: cs => globMatchFuel n (.star :: ps) cs)
  | n + 1, .anyChar :: ps, _ :: cs => globMatchFuel n ps cs
  | _ + 1, .anyChar :: _, [] => false
  | n + 1, .lit a :: ps, c :: cs => a == c && globMatchFuel n ps cs
  | _ + 1, .lit _ :: _, [] => false
  | n + 1, .cls neg body :: ps, c :: cs =>
    (classMatch body c != neg) && globMatchFuel n ps cs
  | _ + 1, .cls _ _ :: _, [] => false

/-- Python `fnmatch.fnmatch(name, pat)` on character lists (POSIX: `normcase`
is the identity). -/
def fnmatchL (name pat : List Char) : Bool :=
  let toks := tokenize pat
  globMatchFuel (toks.length + name.length + 1) toks name

/-! ### Path Filter — `_should_exclude` -/

/-- Python `any(c in glob_pattern for c in "*?[")`. -/
def hasGlobMeta (cs : List Char) : Bool :=
  cs.any fun c => c == '*' || c == '?' || c == '['

/-- One rule's match test against the normalized path: direct glob match, or
the glob as a one-level (`/*`) or any-depth (`/**`) directory, or — for
patterns with no glob metacharacters — the bare-folder backward-compat test. -/
def ruleMatches (normalized globPat : List Char) : Bool :=
  fnmatchL normalized globPat
  || fnmatchL normalized (rstripSlash globPat ++ ['/', '*'])
  || fnmatchL normalized (rstripSlash globPat ++ ['/', '*', '*'])
  || (!hasGlobMeta globPat &&
      ((rstripSlash globPat ++ ['/']).isPrefixOf normalized
        || normalized == rstripSlash globPat))

/-- One loop iteration of `_should_exclude`: strip the negation marker, test
the rule, and on a match overwrite the pending tri-state decision. -/
def applyRule (normalized : List Char) (acc : Option Bool) (pattern : String) :
    Option Bool :=
  let isNeg := ['!'].isPrefixOf pattern.data
  let globPat := if isNeg then pattern.data.drop 1 else pattern.data
  if ruleMatches normalized globPat then some (!isNeg) else acc

/-- The path normalization done before rule evaluation: separators to `/`,
then strip the repository path segment when present (`repo_prefix` in the
source; renamed here). -/
def normalizePath (file_path : String) (repoPfx : String) : List Char :=
  let normalized := normSlashes file_path.data
  if !repoPfx.data.isEmpty && repoPfx.data.isPrefixOf normalized then
    normalized.drop repoPfx.data.length
  else normalized

/-- Python `_should_exclude(file_path, path_filters, repo_prefix)`. -/
def _should_exclude (file_path : String) (path_filters : List String)
    (repoPfx : String) : Bool :=
  if path_filters.isEmpty then false
  else
    (path_filters.foldl (applyRule (normalizePath file_path repoPfx)) none).getD false

/-! #### Last-match-wins characterization (specification side) -/

/-- Negation test on a raw rule, as the loop performs it. -/
def isNegRule (pattern : String) : Bool := ['!'].isPrefixOf pattern.data

/-- The glob body of a raw rule (negation marker stripped). -/
def globOf (pattern : String) : List Char :=
  if isNegRule pattern then pattern.data.drop 1 else pattern.data

/-- Written after the spec's words: the last rule, in order, that matches the
normalized path (`none` when no rule matches). -/
def specLastMatch (normalized : List Char) (rules : List String) : Option String :=
  rules.foldl (fun acc p => if ruleMatches normalized (globOf p) then some p else acc) none

theorem specLastMatch_foldl (normalized : List Char) :
    ∀ (rules : List String) (a : Option String),
      rules.foldl (fun acc p => if ruleMatches normalized (globOf p) then some p else acc) a
        = match specLastMatch normalized rules with
          | some p => some p
          | none => a := by
  intro rules
  induction rules with
  | nil => intro a; simp [specLastMatch]
  | cons r rs ih =>
    intro a
    simp only [specLastMatch, List.foldl_cons] at *
    rw [ih, ih (if ruleMatches normalized (globOf r) then some r else none)]
    cases h : (rs.foldl (fun acc p => if ruleMatches normalized (globOf p) then some p else acc)
        (none : Option String)) with
    | none => cases hc : ruleMatches normalized (globOf r) <;> simp [hc]
    | some p => simp

/-- The loop accumulator of `_should_exclude` tracks the polarity of the last
matching rule seen so far. -/
theorem applyRule_spec (normalized : List Char) :
    ∀ (rules : List String) (a : Option String),
      rules.foldl (applyRule normalized) (a.map fun p => !isNegRule p)
        = (match specLastMatch normalized rules with
           | some p => some p
           | none => a).map fun p => !isNegRule p := by
  intro rules
  induction rules with
  | nil => intro a; simp [specLastMatch]
  | cons r rs ih =>
    intro a
    have hM : specLastMatch normalized (r :: rs)
        = match specLastMatch normalized rs with
          | some p => some p
          | none => if ruleMatches normalized (globOf r) then some r else none := by
      simp only [specLastMatch, List.foldl_cons]
      exact specLastMatch_foldl normalized rs _
    have hstep : applyRule normalized (a.map fun p => !isNegRule p) r
        = (if ruleMatches normalized (globOf r) then some r else a).map
            fun p => !isNegRule p := by
      simp only [applyRule, isNegRule, globOf]
      split <;> split <;> simp
    rw [List.foldl_cons, hstep, ih, hM]
    cases specLastMatch normalized rs with
    | none => cases hc : ruleMatches normalized (globOf r) <;> simp [hc]
    | some p => simp

/-- C2: the Path Filter's exclusion decision is determined by the last
matching rule.  Rules are evaluated in order and each match overwrites the
tri-state pending decision with the rule's polarity, so the final result is:
`false` when no rule matches the normalized path, and otherwise the negation
of the last matching rule's negation marker. -/
theorem path_filter_last_match_wins (file_path : String) (path_filters : List String)
    (repoPfx : String) :
    _should_exclude file_path path_filters repoPfx
      = ((specLastMatch (normalizePath file_path repoPfx) path_filters).map
          fun p => !isNegRule p).getD false := by
  have key : path_filters.foldl (applyRule (normalizePath file_path repoPfx)) none
      = (specLastMatch (normalizePath file_path repoPfx) path_filters).map
          fun p => !isNegRule p := by
    have h := applyRule_spec (normalizePath file_path repoPfx) path_filters none
    cases hM : specLastMatch (normalizePath file_path repoPfx) path_filters <;>
      simp [hM] at h <;> simp [h, hM]
  unfold _should_exclude
  split
  · rename_i h
    have hnil : path_filters = [] := by simpa using h
    subst hnil
    simp [specLastMatch]
  · rw [key]

/-- C6: with rules `["docs/", "!docs/keep.md"]` and empty repository path
segment, `docs/a.md` is excluded, `docs/keep.md` is re-admitted by the negated
rule, `readme.md` is untouched; with the rules swapped so the negation comes
first, `docs/keep.md` is excluded again (last match wins). -/
theorem path_filter_examples :
    _should_exclude "docs/a.md" ["docs/", "!docs/keep.md"] "" = true
    ∧ _should_exclude "docs/keep.md" ["docs/", "!docs/keep.md"] "" = false
    ∧ _should_exclude "readme.md" ["docs/", "!docs/keep.md"] "" = false
    ∧ _should_exclude "docs/keep.md" ["!docs/keep.md", "docs/"] "" = true :=
  ⟨by decide, by decide, by decide, by decide⟩

/-! ### Data model (`CommitInfo`, `ChangeEntry`, `ChangeGroup`, `ChangeDetail`)

Timestamps are carried as their ISO-8601 text: the engine stores and copies
them but never computes with them. -/

structure CommitInfo where
  commit : String
  author : String
  author_email : String
  date : String
  subject : String
  files : List String
deriving DecidableEq

structure ChangeEntry where
  commit : String
  author : String
  date : String
  subject : String
  file_path : String
deriving DecidableEq

structure ChangeGroup where
  group_id : String
  file_path : String
  author : String
  newest_commit : String
  oldest_commit : String
  newest_date : String
  oldest_date : String
  subjects : List String
  commits : List String
deriving DecidableEq

structure ChangeDetail where
  group : ChangeGroup
  diff_text : String
  split_diff_text : String
  base_content : String
  head_content : String
deriving DecidableEq

/-! ### Grouper — `group_consecutive`

The Python loop keeps an insertion-ordered list of groups plus a dict from
`(author, file_path)` to the open group; since each key owns at most one open
group, the dict lookup is the same as searching the ordered list, which is how
it is embedded here. -/

/-- The group opened on the first entry for a new `(author, path)` key. -/
def newGroup (e : ChangeEntry) : ChangeGroup :=
  { group_id := e.file_path ++ "|" ++ e.commit
    file_path := e.file_path
    author := e.author
    newest_commit := e.commit
    oldest_commit := e.commit
    newest_date := e.date
    oldest_date := e.date
    subjects := [e.subject]
    commits := [e.commit] }

/-- The merge performed on a subsequent entry for an already-open key. -/
def updateGroup (g : ChangeGroup) (e : ChangeEntry) : ChangeGroup :=
  { g with
    oldest_commit := e.commit
    oldest_date := e.date
    subjects := g.subjects ++ [e.subject]
    commits := g.commits ++ [e.commit] }

/-- Route one entry to its open group, or open a new group at the end. -/
def insertEntry : List ChangeGroup → ChangeEntry → List ChangeGroup
  | [], e => [newGroup e]
  | g :: gs, e =>
    if g.author == e.author && g.file_path == e.file_path then updateGroup g e :: gs
    else g :: insertEntry gs e

/-- Python `group_consecutive(entries)`. -/
def group_consecutive (entries : List ChangeEntry) : List ChangeGroup :=
  entries.foldl insertEntry []

/-- Any property preserved by `updateGroup` and established by `newGroup`
holds of every group `insertEntry` produces. -/
theorem insertEntry_forall {P : ChangeGroup → Prop}
    (hupd : ∀ g e, P g → P (updateGroup g e)) (hnew : ∀ e, P (newGroup e)) :
    ∀ (gs : List ChangeGroup) (e : ChangeEntry),
      (∀ g ∈ gs, P g) → ∀ g ∈ insertEntry gs e, P g := by
  intro gs
  induction gs with
  | nil =>
    intro e hall g hg
    simp only [insertEntry, List.mem_singleton] at hg
    subst hg
    exact hnew e
  | cons g0 gs ih =>
    intro e hall g hg
    simp only [insertEntry] at hg
    split at hg
    · rcases List.mem_cons.mp hg with h | h
      · subst h; exact hupd g0 e (hall g0 (List.mem_cons_self g0 gs))
      · exact hall g (List.mem_cons_of_mem g0 h)
    · rcases List.mem_cons.mp hg with h | h
      · subst h; exact hall g (List.mem_cons_self g gs)
      · exact ih e (fun g' hg' => hall g' (List.mem_cons_of_mem g0 hg')) g h

theorem foldl_insertEntry_forall {P : ChangeGroup → Prop}
    (hupd : ∀ g e, P g → P (updateGroup g e)) (hnew : ∀ e, P (newGroup e)) :
    ∀ (entries : List ChangeEntry) (acc : List ChangeGroup),
      (∀ g ∈ acc, P g) → ∀ g ∈ entries.foldl insertEntry acc, P g := by
  intro entries
  induction entries with
  | nil => intro acc h; simpa using h
  | cons e es ih =>
    intro acc h
    simp only [List.foldl_cons]
    exact ih _ (insertEntry_forall hupd hnew acc e h)

theorem group_consecutive_forall {P : ChangeGroup → Prop}
    (hupd : ∀ g e, P g → P (updateGroup g e)) (hnew : ∀ e, P (newGroup e)) :
    ∀ entries, ∀ g ∈ group_consecutive entries, P g :=
  fun entries => foldl_insertEntry_forall hupd hnew entries [] (by simp)

/-- Every produced group's id is its path joined to its newest commit. -/
theorem groupId_eq_path_newest :
    ∀ (entries : List ChangeEntry), ∀ g ∈ group_consecutive entries,
      g.group_id = g.file_path ++ "|" ++ g.newest_commit :=
  group_consecutive_forall (fun _ _ h => h) (fun _ => rfl)

/-- The concrete newest-first entry sequence of the claim. -/
def entriesC3 : List ChangeEntry :=
  [⟨"c1", "A", "d1", "s1", "x.md"⟩, ⟨"c2", "A", "d2", "s2", "y.md"⟩,
   ⟨"c3", "A", "d3", "s3", "x.md"⟩]

/-- The group the Grouper produces for `x.md` from `entriesC3`. -/
def groupC3x : ChangeGroup :=
  ⟨"x.md|c1", "x.md", "A", "c1", "c3", "d1", "d3", ["s1", "s3"], ["c1", "c3"]⟩

/-- C3: the newest-first entries `[(A,x.md,c1), (A,y.md,c2), (A,x.md,c3)]`
produce exactly two groups, the `x.md` group having commits `[c1, c3]`,
newest commit `c1` and oldest commit `c3`; and for every input sequence a
group's id is the file path joined by `|` to the newest commit — fixed at
creation and untouched by merges (`updateGroup` preserves it). -/
theorem grouper_merges_noncontiguous :
    ((group_consecutive entriesC3).map fun g =>
        (g.file_path, g.commits, g.newest_commit, g.oldest_commit))
      = [("x.md", ["c1", "c3"], "c1", "c3"), ("y.md", ["c2"], "c2", "c2")]
    ∧ (∀ (entries : List ChangeEntry), ∀ g ∈ group_consecutive entries,
        g.group_id = g.file_path ++ "|" ++ g.newest_commit)
    ∧ (∀ (g : ChangeGroup) (e : ChangeEntry), (updateGroup g e).group_id = g.group_id) :=
  ⟨by decide, groupId_eq_path_newest, fun _ _ => rfl⟩

theorem grouper_merges_noncontiguous_witness :
    groupC3x.group_id = groupC3x.file_path ++ "|" ++ groupC3x.newest_commit :=
  grouper_merges_noncontiguous.2.1 entriesC3 groupC3x (by decide)

/-- C8: the Grouper is a pure deterministic stage: equal entry sequences give
equal group lists with identical group ids, and every group id is a function
of the group's (path, newest commit) pair alone, so ids are stable across
repeated runs over unchanged input. -/
theorem grouper_deterministic (entries1 entries2 : List ChangeEntry)
    (h : entries1 = entries2) :
    group_consecutive entries1 = group_consecutive entries2
    ∧ (group_consecutive entries1).map (fun g => g.group_id)
        = (group_consecutive entries2).map (fun g => g.group_id)
    ∧ (∀ g ∈ group_consecutive entries1,
        g.group_id = g.file_path ++ "|" ++ g.newest_commit) := by
  subst h
  exact ⟨rfl, rfl, groupId_eq_path_newest entries1⟩

theorem grouper_deterministic_witness :
    (group_consecutive entriesC3).map (fun g => g.group_id)
      = (group_consecutive entriesC3).map (fun g => g.group_id) :=
  (grouper_deterministic entriesC3 entriesC3 rfl).2.1

/-- C9: every produced group has a non-empty commit list whose first element
is the newest commit and last element the oldest commit, commit and subject
lists of equal length; and a merge (`updateGroup`) never modifies the newest
commit or newest date. -/
theorem group_invariants :
    (∀ (entries : List ChangeEntry), ∀ g ∈ group_consecutive entries,
      g.commits ≠ [] ∧ g.commits.head? = some g.newest_commit
        ∧ g.commits.getLast? = some g.oldest_commit
        ∧ g.commits.length = g.subjects.length)
    ∧ (∀ (g : ChangeGroup) (e : ChangeEntry),
        (updateGroup g e).newest_commit = g.newest_commit
          ∧ (updateGroup g e).newest_date = g.newest_date) := by
  constructor
  · refine group_consecutive_forall ?_ ?_
    · rintro g e ⟨h1, h2, h3, h4⟩
      refine ⟨by simp [updateGroup], ?_, ?_, ?_⟩
      · cases hc : g.commits with
        | nil => exact absurd hc h1
        | cons a l => simp only [updateGroup] at *; rw [hc]; rw [hc] at h2; simpa using h2
      · simp [updateGroup, List.getLast?_concat]
      · simp only [updateGroup] at *; simp [h4]
    · intro e
      simp [newGroup]
  · exact fun g e => ⟨rfl, rfl⟩

theorem group_invariants_witness :
    groupC3x.commits ≠ [] ∧ groupC3x.commits.head? = some groupC3x.newest_commit
      ∧ groupC3x.commits.getLast? = some groupC3x.oldest_commit
      ∧ groupC3x.commits.length = groupC3x.subjects.length :=
  group_invariants.1 entriesC3 groupC3x (by decide)

/-! ### Log Parser — `_parse_log` -/

/-- The inner `while` of `_parse_log`: collect stripped non-blank file lines
until the next sentinel or end of input; the second component is the
unconsumed remainder. -/
def takeFiles : List String → List String × List String
  | [] => ([], [])
  | l :: rest =>
    if l = "==COMMIT==" then ([], l :: rest)
    else if pyStrip l = "" then takeFiles rest
    else (pyStrip l :: (takeFiles rest).1, (takeFiles rest).2)

/-- The outer `while` of `_parse_log`.  A sentinel followed by fewer than five
lines breaks out of the loop, discarding the truncated record.  Fuel is the
number of remaining lines; every iteration consumes at least one line, so
`lines.length` fuel is enough. -/
def parseBlocksFuel : Nat → List String → List CommitInfo
  | 0, _ => []
  | _ + 1, [] => []
  | fuel + 1, l :: rest =>
    if l = "==COMMIT==" then
      match rest with
      | c :: a :: e :: d :: s :: rest2 =>
        (⟨pyStrip c, pyStrip a, pyStrip e, pyStrip d, pyStrip s,
            (takeFiles rest2).1⟩ : CommitInfo)
          :: parseBlocksFuel fuel (takeFiles rest2).2
      | _ => []
    else parseBlocksFuel fuel rest

/-- Python `_parse_log(output)` (ISO timestamps kept as their stripped text,
since the engine only stores them). -/
def _parse_log (output : String) : List CommitInfo :=
  parseBlocksFuel (pySplitlines output).length (pySplitlines output)

/-- A sentinel-delimited block of the raw log: five metadata lines plus the
file-path lines. -/
structure RawBlock where
  idLine : String
  authorLine : String
  emailLine : String
  dateLine : String
  subjectLine : String
  fileLines : List String
deriving DecidableEq

def renderBlock (b : RawBlock) : List String :=
  "==COMMIT==" :: b.idLine :: b.authorLine :: b.emailLine :: b.dateLine
    :: b.subjectLine :: b.fileLines

def renderLog (bs : List RawBlock) : List String :=
  (bs.map renderBlock).flatten

/-- The CommitRecord the parser should produce for one block. -/
def mkRecord (b : RawBlock) : CommitInfo :=
  ⟨pyStrip b.idLine, pyStrip b.authorLine, pyStrip b.emailLine,
    pyStrip b.dateLine, pyStrip b.subjectLine,
    (b.fileLines.filter fun l => pyStrip l != "").map pyStrip⟩

theorem takeFiles_append (files rest : List String)
    (hf : ∀ f ∈ files, f ≠ "==COMMIT==")
    (hr : rest = [] ∨ ∃ r', rest = "==COMMIT==" :: r') :
    takeFiles (files ++ rest)
      = ((files.filter fun l => pyStrip l != "").map pyStrip, rest) := by
  induction files with
  | nil =>
    simp only [List.nil_append, List.filter_nil, List.map_nil]
    rcases hr with h | ⟨r', h⟩ <;> subst h <;> simp [takeFiles]
  | cons f fs ih =>
    have hf0 : f ≠ "==COMMIT==" := hf f (by simp)
    have ih' := ih fun x hx => hf x (by simp [hx])
    simp only [List.cons_append, takeFiles, if_neg hf0, List.filter_cons]
    by_cases hb : pyStrip f = "" <;> simp [hb, ih']

theorem parseBlocksFuel_nil (fuel : Nat) : parseBlocksFuel fuel [] = [] := by
  cases fuel <;> rfl

theorem parseBlocksFuel_block (fuel : Nat) (b : RawBlock) (rest : List String)
    (hf : ∀ f ∈ b.fileLines, f ≠ "==COMMIT==")
    (hr : rest = [] ∨ ∃ r', rest = "==COMMIT==" :: r') :
    parseBlocksFuel (fuel + 1) (renderBlock b ++ rest)
      = mkRecord b :: parseBlocksFuel fuel rest := by
  have h := takeFiles_append b.fileLines rest hf hr
  simp [renderBlock, parseBlocksFuel, h, mkRecord]

theorem renderLog_shape (bs : List RawBlock) (rest : List String)
    (hr : rest = [] ∨ ∃ r', rest = "==COMMIT==" :: r') :
    renderLog bs ++ rest = [] ∨ ∃ r', renderLog bs ++ rest = "==COMMIT==" :: r' := by
  cases bs with
  | nil => simpa [renderLog] using hr
  | cons b bs =>
    right
    exact ⟨(b.idLine :: b.authorLine :: b.emailLine :: b.dateLine :: b.subjectLine
        :: b.fileLines) ++ (renderLog bs ++ rest),
      by simp [renderLog, renderBlock]⟩

theorem parseBlocksFuel_render (bs : List RawBlock) :
    ∀ (fuel : Nat) (rest : List String),
      (∀ b ∈ bs, ∀ f ∈ b.fileLines, f ≠ "==COMMIT==") →
      (rest = [] ∨ ∃ r', rest = "==COMMIT==" :: r') →
      (renderLog bs ++ rest).length ≤ fuel →
      parseBlocksFuel fuel (renderLog bs ++ rest)
        = bs.map mkRecord ++ parseBlocksFuel (fuel - bs.length) rest := by
  induction bs with
  | nil => intro fuel rest _ _ _; simp [renderLog]
  | cons b bs ih =>
    intro fuel rest hf hr hfuel
    have hsplit : renderLog (b :: bs) ++ rest = renderBlock b ++ (renderLog bs ++ rest) := by
      simp [renderLog]
    rw [hsplit] at hfuel ⊢
    have hblen : (renderBlock b).length = 6 + b.fileLines.length := by
      simp [renderBlock]; omega
    have hge : 1 ≤ fuel := by
      have := List.length_append (renderBlock b) (renderLog bs ++ rest)
      omega
    obtain ⟨fuel', rfl⟩ : ∃ f', fuel = f' + 1 := ⟨fuel - 1, by omega⟩
    rw [parseBlocksFuel_block fuel' b (renderLog bs ++ rest)
      (hf b (by simp)) (renderLog_shape bs rest hr)]
    have hlen' : (renderLog bs ++ rest).length ≤ fuel' := by
      have := List.length_append (renderBlock b) (renderLog bs ++ rest)
      omega
    rw [ih fuel' rest (fun b' hb' => hf b' (by simp [hb'])) hr hlen']
    simp [Nat.succ_sub_succ]

theorem parseBlocksFuel_truncated (fuel : Nat) (extra : List String)
    (h : extra.length < 5) :
    parseBlocksFuel (fuel + 1) ("==COMMIT==" :: extra) = [] := by
  rcases extra with _ | ⟨a, _ | ⟨b, _ | ⟨c, _ | ⟨d, _ | ⟨e, r⟩⟩⟩⟩⟩
  · simp [parseBlocksFuel]
  · simp [parseBlocksFuel]
  · simp [parseBlocksFuel]
  · simp [parseBlocksFuel]
  · simp [parseBlocksFuel]
  · exfalso; simp only [List.length_cons] at h; omega

/-- Render lines back to raw text, one trailing newline per line (the shape of
git log output). -/
def toText (lines : List String) : String :=
  ⟨(lines.map fun l => l.data ++ ['\n']).flatten⟩

theorem splitLinesAux_line (l : List Char) (rest : List Char)
    (h : ∀ c ∈ l, c ≠ '\n') :
    ∀ cur, splitLinesAux cur (l ++ '\n' :: rest)
      = (cur.reverse ++ l) :: splitLinesAux [] rest := by
  induction l with
  | nil => intro cur; simp [splitLinesAux]
  | cons c l ih =>
    intro cur
    have hc := h c (by simp)
    simp only [List.cons_append, splitLinesAux, if_neg hc, List.append_eq]
    rw [ih (fun x hx => h x (by simp [hx])) (c :: cur)]
    simp

theorem pySplitlines_toText (lines : List String)
    (h : ∀ l ∈ lines, ∀ c ∈ l.data, c ≠ '\n') :
    pySplitlines (toText lines) = lines := by
  induction lines with
  | nil => rfl
  | cons l ls ih =>
    have hjoin : (toText (l :: ls)).data = l.data ++ '\n' :: (toText ls).data := by
      simp [toText]
    simp only [pySplitlines, hjoin]
    rw [splitLinesAux_line l.data (toText ls).data (h l (by simp))]
    have ihls := ih fun l' hl' => h l' (by simp [hl'])
    simp only [pySplitlines] at ihls
    simp [ihls]

theorem renderLog_length (bs : List RawBlock) :
    bs.length ≤ (renderLog bs).length := by
  induction bs with
  | nil => simp [renderLog]
  | cons b bs ih =>
    have : renderLog (b :: bs) = renderBlock b ++ renderLog bs := by simp [renderLog]
    rw [this]
    simp only [List.length_append, List.length_cons]
    have : 1 ≤ (renderBlock b).length := by simp [renderBlock]
    omega

/-- C5: for well-formed input the Log Parser yields exactly one record per
sentinel-delimited block, each record's file count being the number of
non-blank lines between its metadata and the next sentinel; a truncated
trailing record (fewer than five metadata lines after the last sentinel) is
discarded; empty input parses to the empty sequence. -/
theorem parse_log_blocks (bs : List RawBlock) (extra : List String)
    (hb : ∀ b ∈ bs, ∀ f ∈ b.fileLines, f ≠ "==COMMIT==")
    (hnl : ∀ l ∈ renderLog bs, ∀ c ∈ l.data, c ≠ '\n')
    (hx : extra.length < 5)
    (hxnl : ∀ l ∈ extra, ∀ c ∈ l.data, c ≠ '\n') :
    _parse_log (toText (renderLog bs)) = bs.map mkRecord
    ∧ _parse_log (toText (renderLog bs ++ "==COMMIT==" :: extra)) = bs.map mkRecord
    ∧ (_parse_log (toText (renderLog bs))).length = bs.length
    ∧ (∀ b ∈ bs, (mkRecord b).files.length
        = b.fileLines.countP fun l => pyStrip l != "")
    ∧ _parse_log "" = [] := by
  have hsent : ∀ c ∈ ("==COMMIT==" : String).data, c ≠ '\n' := by decide
  have h1 : _parse_log (toText (renderLog bs)) = bs.map mkRecord := by
    unfold _parse_log
    rw [pySplitlines_toText (renderLog bs) hnl]
    have := parseBlocksFuel_render bs (renderLog bs).length [] hb (Or.inl rfl)
      (by simp)
    simpa [parseBlocksFuel_nil] using this
  refine ⟨h1, ?_, by rw [h1]; simp, ?_, rfl⟩
  · unfold _parse_log
    have hnl' : ∀ l ∈ renderLog bs ++ "==COMMIT==" :: extra,
        ∀ c ∈ l.data, c ≠ '\n' := by
      intro l hl
      rcases List.mem_append.mp hl with h | h
      · exact hnl l h
      · rcases List.mem_cons.mp h with h | h
        · subst h; exact hsent
        · exact hxnl l h
    rw [pySplitlines_toText _ hnl']
    have hrest : ("==COMMIT==" :: extra : List String) = []
        ∨ ∃ r', ("==COMMIT==" :: extra : List String) = "==COMMIT==" :: r' :=
      Or.inr ⟨extra, rfl⟩
    rw [parseBlocksFuel_render bs _ ("==COMMIT==" :: extra) hb hrest le_rfl]
    have h6 := renderLog_length bs
    have hlen2 : (renderLog bs ++ "==COMMIT==" :: extra).length
        = (renderLog bs).length + (extra.length + 1) := by simp
    have hk : (renderLog bs ++ "==COMMIT==" :: extra).length - bs.length
        = ((renderLog bs ++ "==COMMIT==" :: extra).length - bs.length - 1) + 1 := by
      omega
    rw [hk, parseBlocksFuel_truncated _ extra hx]
    simp
  · intro b _
    simp [mkRecord, List.countP_eq_length_filter]

/-- A concrete block for the C5 witness. -/
def blockC5 : RawBlock :=
  ⟨"abc123", "Alice", "alice@example.com", "2024-01-02T03:04:05+00:00",
    "edit page", ["f1.md", "", "f2.md"]⟩

theorem parse_log_blocks_witness :
    _parse_log (toText (renderLog [blockC5])) = [blockC5].map mkRecord
    ∧ _parse_log (toText (renderLog [blockC5] ++ "==COMMIT==" :: ["zzz"]))
        = [blockC5].map mkRecord
    ∧ (_parse_log (toText (renderLog [blockC5]))).length = 1
    ∧ _parse_log "" = [] :=
  ⟨(parse_log_blocks [blockC5] ["zzz"] (by decide) (by decide) (by decide)
      (by decide)).1,
   (parse_log_blocks [blockC5] ["zzz"] (by decide) (by decide) (by decide)
      (by decide)).2.1,
   (parse_log_blocks [blockC5] ["zzz"] (by decide) (by decide) (by decide)
      (by decide)).2.2.1,
   (parse_log_blocks [blockC5] ["zzz"] (by decide) (by decide) (by decide)
      (by decide)).2.2.2.2⟩

/-! ### Version-Control Gateway model and Diff Reconstructor

The Gateway (`_run_git`) is modelled as a record with one field per query
shape the Diff Reconstructor issues.  A field returning `Option` models a git
invocation whose `CalledProcessError` the caller catches (`none` = the
process exited non-zero, e.g. file absent at the ref).  Queries whose
failures the source does not catch are total here: a raised error would abort
the whole pass, which is outside the per-group behaviour being verified. -/

structure GitGateway where
  /-- `git rev-parse <commit>^` — `none` models the caught process failure. -/
  revParseParent : String → Option String
  /-- `git hash-object -t tree --stdin < /dev/null` — the empty-tree id. -/
  emptyTree : String
  /-- `git show <ref>:<path>` — `none` models the caught process failure. -/
  showFile : String → String → Option String
  /-- `git diff --no-color <base> <head> -- <path>`. -/
  diff : String → String → String → String
  /-- `git show --no-color --patch <head> -- <path>`. -/
  showPatch : String → String → String
  /-- `git show -m --no-color --patch <commit>` (full patch, all files). -/
  showFullPatch : String → String

/-- Python `_get_parent_or_empty_tree(repo_path, commit)`. -/
def _get_parent_or_empty_tree (gw : GitGateway) (commit : String) : String :=
  match gw.revParseParent commit with
  | some out => if pyStrip out = "" then gw.emptyTree else pyStrip out
  | none => gw.emptyTree

/-- Python `_show_file(repo_path, ref, file_path)`. -/
def _show_file (gw : GitGateway) (ref file_path : String) : String :=
  match gw.showFile ref file_path with
  | some out => out
  | none => ""

/-- Python `_diff_file(repo_path, base_ref, head_ref, file_path)`: the ranged
diff when it is not blank, otherwise the head commit's patch for the path. -/
def _diff_file (gw : GitGateway) (base_ref head_ref file_path : String) : String :=
  let diff_text := gw.diff base_ref head_ref file_path
  if pyStrip diff_text ≠ "" then diff_text
  else gw.showPatch head_ref file_path

/-- Python `line.startswith("diff --git ")`. -/
def isDiffHeader (line : List Char) : Bool :=
  ("diff --git ".data).isPrefixOf line

/-- One iteration of the `_extract_file_diff` loop; the state is the captured
text so far and the capturing flag. -/
def extractStep (normalized : List Char) (acc : List Char × Bool) (line : List Char) :
    List Char × Bool :=
  if isDiffHeader line then
    if isSubstring normalized line then (acc.1 ++ line, true) else (acc.1, false)
  else if acc.2 then (acc.1 ++ line, acc.2) else acc

/-- Python `_extract_file_diff(full_diff, file_path)`. -/
def _extract_file_diff (full_diff file_path : String) : String :=
  let lines := splitLinesKeepAux [] full_diff.data
  let normalized := normSlashes file_path.data
  ⟨(lines.foldl (extractStep normalized) ([], false)).1⟩

/-- Python `_commit_patch(repo_path, commit, file_path)`. -/
def _commit_patch (gw : GitGateway) (commit file_path : String) : String :=
  _extract_file_diff (gw.showFullPatch commit) file_path

/-- Python `get_change_details(repo_path, groups)`. -/
def get_change_details (gw : GitGateway) (groups : List ChangeGroup) :
    List ChangeDetail :=
  groups.map fun group =>
    let base_ref := _get_parent_or_empty_tree gw group.oldest_commit
    let head_ref := group.newest_commit
    let base_content := _show_file gw base_ref group.file_path
    let head_content := _show_file gw head_ref group.file_path
    let merged_diff_text := _diff_file gw base_ref head_ref group.file_path
    let split_diff_text :=
      if 1 < group.commits.length then
        pyJoin "\n"
          ((group.commits.map fun c => _commit_patch gw c group.file_path).filter
            fun p => pyStrip p != "")
      else merged_diff_text
    ⟨group, merged_diff_text, split_diff_text, base_content, head_content⟩

/-- C7: a content query that fails because the file is absent at the ref
returns the empty string rather than propagating; the pass still produces one
ChangeDetail per group, with the failed field degraded to empty content. -/
theorem show_file_missing_degrades (gw : GitGateway) (ref file_path : String)
    (h : gw.showFile ref file_path = none) :
    _show_file gw ref file_path = ""
    ∧ (∀ groups : List ChangeGroup,
        (get_change_details gw groups).length = groups.length)
    ∧ (∀ (groups : List ChangeGroup) (d : ChangeDetail),
        d ∈ get_change_details gw groups →
        (gw.showFile (_get_parent_or_empty_tree gw d.group.oldest_commit)
            d.group.file_path = none → d.base_content = "")
        ∧ (gw.showFile d.group.newest_commit d.group.file_path = none →
            d.head_content = "")) := by
  refine ⟨by simp [_show_file, h], fun groups => by simp [get_change_details], ?_⟩
  intro groups d hd
  simp only [get_change_details, List.mem_map] at hd
  obtain ⟨g, hg, rfl⟩ := hd
  dsimp only
  constructor
  · intro hb; simp [_show_file, hb]
  · intro hh; simp [_show_file, hh]

/-- A gateway for which every query fails or is blank. -/
def gwC7 : GitGateway :=
  ⟨fun _ => none, "ET", fun _ _ => none, fun _ _ _ => "", fun _ _ => "", fun _ => ""⟩

/-- A single-commit group used by the C1 and C7 witnesses. -/
def groupC1 : ChangeGroup :=
  ⟨"x.md|h1", "x.md", "A", "h1", "h1", "d1", "d1", ["s"], ["h1"]⟩

theorem show_file_missing_degrades_witness :
    _show_file gwC7 "r" "p" = ""
    ∧ (get_change_details gwC7 [groupC1]).length = [groupC1].length :=
  ⟨(show_file_missing_degrades gwC7 "r" "p" rfl).1,
   (show_file_missing_degrades gwC7 "r" "p" rfl).2.1 [groupC1]⟩

/-- C4: for a single-commit group the split diff is the merged diff; for a
multi-commit group it is the newline-joined concatenation, in commit-list
order, of each commit's extracted per-path patch, skipping the blank ones. -/
theorem split_diff_concatenation (gw : GitGateway) (groups : List ChangeGroup)
    (d : ChangeDetail) (hd : d ∈ get_change_details gw groups) :
    (d.group.commits.length = 1 → d.split_diff_text = d.diff_text)
    ∧ (1 < d.group.commits.length →
        d.split_diff_text = pyJoin "\n"
          ((d.group.commits.map fun c => _commit_patch gw c d.group.file_path).filter
            fun p => pyStrip p != "")) := by
  simp only [get_change_details, List.mem_map] at hd
  obtain ⟨g, hg, rfl⟩ := hd
  dsimp only
  constructor
  · intro h1
    have hnot : ¬ 1 < g.commits.length := by omega
    simp [hnot]
  · intro h2
    simp [h2]

/-- A gateway whose per-commit full patches are distinct one-file diffs. -/
def gwC4 : GitGateway :=
  { revParseParent := fun _ => none
    emptyTree := "ET"
    showFile := fun _ _ => none
    diff := fun _ _ _ => "D\n"
    showPatch := fun _ _ => ""
    showFullPatch := fun c =>
      if c == "c1" then "diff --git a/x.md b/x.md\n+a\n"
      else "diff --git a/x.md b/x.md\n+b\n" }

/-- The detail `get_change_details gwC4 [groupC3x]` produces. -/
def dC4 : ChangeDetail :=
  ⟨groupC3x, "D\n",
    "diff --git a/x.md b/x.md\n+a\n\ndiff --git a/x.md b/x.md\n+b\n", "", ""⟩

theorem split_diff_concatenation_witness :
    dC4.split_diff_text = pyJoin "\n"
      ((dC4.group.commits.map fun c => _commit_patch gwC4 c dC4.group.file_path).filter
        fun p => pyStrip p != "") :=
  (split_diff_concatenation gwC4 [groupC3x] dC4 (by decide)).2 (by decide)

/-- A gateway whose ranged diff and head patch are both blank while the head
content exists: the configuration the claimed third fallback would rescue. -/
def gwC1 : GitGateway :=
  { revParseParent := fun _ => none
    emptyTree := "ET"
    showFile := fun r _ => if r == "h1" then some "hello\n" else none
    diff := fun _ _ _ => ""
    showPatch := fun _ _ => ""
    showFullPatch := fun _ => "" }

/-- C1 counterexample: for the group over `x.md` with single commit `h1`, the
produced detail has empty base content and non-empty head content, yet its
merged diff is empty — the code has no fallback synthesizing a diff from the
two content strings. -/
theorem merged_diff_empty_despite_content_cex :
    ¬ ∀ d ∈ get_change_details gwC1 [groupC1],
        d.base_content = "" → d.head_content ≠ "" → d.diff_text ≠ "" := by
  decide

/-- C1 amended: the merged diff is the Gateway's ranged diff between base and
head when that is not blank, and otherwise the head commit's patch restricted
to the path; the chain stops there, so the merged diff can be empty even when
base and head contents differ. -/
theorem merged_diff_fallback_chain (gw : GitGateway) (groups : List ChangeGroup)
    (d : ChangeDetail) (hd : d ∈ get_change_details gw groups) :
    (pyStrip (gw.diff (_get_parent_or_empty_tree gw d.group.oldest_commit)
        d.group.newest_commit d.group.file_path) ≠ "" →
      d.diff_text = gw.diff (_get_parent_or_empty_tree gw d.group.oldest_commit)
        d.group.newest_commit d.group.file_path)
    ∧ (pyStrip (gw.diff (_get_parent_or_empty_tree gw d.group.oldest_commit)
        d.group.newest_commit d.group.file_path) = "" →
      d.diff_text = gw.showPatch d.group.newest_commit d.group.file_path) := by
  simp only [get_change_details, List.mem_map] at hd
  obtain ⟨g, hg, rfl⟩ := hd
  dsimp only
  constructor
  · intro h1; simp [_diff_file, h1]
  · intro h2; simp [_diff_file, h2]

/-- The detail `get_change_details gwC1 [groupC1]` produces. -/
def dC1 : ChangeDetail := ⟨groupC1, "", "", "", "hello\n"⟩

theorem merged_diff_fallback_chain_witness :
    dC1.diff_text = gwC1.showPatch dC1.group.newest_commit dC1.group.file_path :=
  (merged_diff_fallback_chain gwC1 [groupC1] dC1 (by decide)).2 (by decide)

/-! #### Block-level characterization of `_extract_file_diff` -/

/-- Take the body of a diff block: the lines up to (excluding) the next
`diff --git` header. -/
def takeBlock : List (List Char) → List (List Char) × List (List Char)
  | [] => ([], [])
  | l :: rest =>
    if isDiffHeader l then ([], l :: rest)
    else (l :: (takeBlock rest).1, (takeBlock rest).2)

/-- Cut a keepends line list into `diff --git` blocks (each starting with its
header line); lines before the first header belong to no block. -/
def diffBlocksFuel : Nat → List (List Char) → List (List (List Char))
  | 0, _ => []
  | _ + 1, [] => []
  | n + 1, l :: rest =>
    if isDiffHeader l then
      (l :: (takeBlock rest).1) :: diffBlocksFuel n (takeBlock rest).2
    else diffBlocksFuel n rest

/-- A block is captured exactly when its header line contains the normalized
query path as a substring. -/
def blockCaptured (normalized : List Char) : List (List Char) → Bool
  | [] => false
  | h :: _ => isSubstring normalized h

theorem takeBlock_spec : ∀ lines : List (List Char),
    (∀ l ∈ (takeBlock lines).1, isDiffHeader l = false)
    ∧ (takeBlock lines).1 ++ (takeBlock lines).2 = lines
    ∧ ((takeBlock lines).2 = []
        ∨ ∃ h r, (takeBlock lines).2 = h :: r ∧ isDiffHeader h = true) := by
  intro lines
  induction lines with
  | nil => simp [takeBlock]
  | cons l rest ih =>
    by_cases hh : isDiffHeader l = true
    · exact ⟨by simp [takeBlock, hh], by simp [takeBlock, hh],
        Or.inr ⟨l, rest, by simp [takeBlock, hh], hh⟩⟩
    · obtain ⟨ih1, ih2, ih3⟩ := ih
      refine ⟨?_, ?_, ?_⟩
      · intro x hx
        simp only [takeBlock, if_neg hh] at hx
        rcases List.mem_cons.mp hx with h | h
        · subst h; simpa using hh
        · exact ih1 x h
      · simp only [takeBlock, if_neg hh, List.cons_append, ih2]
      · simp only [takeBlock, if_neg hh]; exact ih3

theorem extract_foldl_skip (n : List Char) :
    ∀ (body : List (List Char)) (acc : List Char),
      (∀ l ∈ body, isDiffHeader l = false) →
      body.foldl (extractStep n) (acc, false) = (acc, false) := by
  intro body
  induction body with
  | nil => intro acc _; rfl
  | cons l body ih =>
    intro acc h
    have h0 := h l (by simp)
    have hstep : extractStep n (acc, false) l = (acc, false) := by
      simp [extractStep, h0]
    rw [List.foldl_cons, hstep]
    exact ih acc fun x hx => h x (by simp [hx])

theorem extract_foldl_cap (n : List Char) :
    ∀ (body rest : List (List Char)) (acc : List Char),
      (∀ l ∈ body, isDiffHeader l = false) →
      (body ++ rest).foldl (extractStep n) (acc, true)
        = rest.foldl (extractStep n) (acc ++ body.flatten, true) := by
  intro body
  induction body with
  | nil => intro rest acc _; simp
  | cons l body ih =>
    intro rest acc h
    have h0 := h l (by simp)
    have hstep : extractStep n (acc, true) l = (acc ++ l, true) := by
      simp [extractStep, h0]
    simp only [List.cons_append, List.foldl_cons, hstep]
    rw [ih rest (acc ++ l) fun x hx => h x (by simp [hx])]
    simp [List.append_assoc]

theorem extract_foldl_flag (n : List Char) (rest : List (List Char))
    (acc : List Char) (b1 b2 : Bool)
    (hr : rest = [] ∨ ∃ h r, rest = h :: r ∧ isDiffHeader h = true) :
    (rest.foldl (extractStep n) (acc, b1)).1
      = (rest.foldl (extractStep n) (acc, b2)).1 := by
  rcases hr with rfl | ⟨h, r, rfl, hh⟩
  · rfl
  · simp only [List.foldl_cons]
    have e1 : extractStep n (acc, b1) h = extractStep n (acc, b2) h := by
      simp [extractStep, hh]
    rw [e1]

theorem extract_foldl_blocks (n : List Char) :
    ∀ (fuel : Nat) (lines : List (List Char)) (acc : List Char),
      lines.length ≤ fuel →
      (lines.foldl (extractStep n) (acc, false)).1
        = acc ++ ((diffBlocksFuel fuel lines).filter (blockCaptured n)).flatten.flatten := by
  intro fuel
  induction fuel with
  | zero =>
    intro lines acc hl
    have hnil : lines = [] := by
      cases lines with
      | nil => rfl
      | cons a b => simp at hl
    subst hnil
    simp [diffBlocksFuel]
  | succ m ih =>
    intro lines acc hl
    cases lines with
    | nil => simp [diffBlocksFuel]
    | cons l rest =>
      obtain ⟨hb1, hb2, hb3⟩ := takeBlock_spec rest
      have hrlen : rest.length ≤ m := by
        simp only [List.length_cons] at hl; omega
      have hlen2 : (takeBlock rest).2.length ≤ m := by
        have := congrArg List.length hb2
        simp only [List.length_append] at this
        omega
      by_cases hh : isDiffHeader l = true
      · by_cases hcap : isSubstring n l = true
        · have hstep : extractStep n (acc, false) l = (acc ++ l, true) := by
            simp [extractStep, hh, hcap]
          rw [List.foldl_cons, hstep]
          conv_lhs => rw [← hb2]
          rw [extract_foldl_cap n (takeBlock rest).1 (takeBlock rest).2 (acc ++ l) hb1]
          rw [extract_foldl_flag n (takeBlock rest).2
            (acc ++ l ++ (takeBlock rest).1.flatten) true false hb3]
          rw [ih (takeBlock rest).2 (acc ++ l ++ (takeBlock rest).1.flatten) hlen2]
          simp only [diffBlocksFuel, if_pos hh, List.filter_cons]
          have hkeep : blockCaptured n (l :: (takeBlock rest).1) = true := by
            simpa [blockCaptured] using hcap
          simp [hkeep, List.append_assoc]
        · have hstep : extractStep n (acc, false) l = (acc, false) := by
            simp [extractStep, hh, hcap]
          rw [List.foldl_cons, hstep]
          conv_lhs => rw [← hb2]
          rw [List.foldl_append, extract_foldl_skip n (takeBlock rest).1 acc hb1]
          rw [ih (takeBlock rest).2 acc hlen2]
          simp only [diffBlocksFuel, if_pos hh, List.filter_cons]
          have hdrop : blockCaptured n (l :: (takeBlock rest).1) = false := by
            simpa [blockCaptured] using hcap
          simp [hdrop]
      · have hstep : extractStep n (acc, false) l = (acc, false) := by
          simp [extractStep, hh]
        rw [List.foldl_cons, hstep, ih rest acc hrlen]
        simp only [diffBlocksFuel, if_neg hh]

/-- `_extract_file_diff` returns exactly the concatenation of the diff blocks
whose header line contains the normalized path as a substring. -/
theorem extract_file_diff_eq_blocks (full_diff file_path : String) :
    _extract_file_diff full_diff file_path
      = ⟨(((diffBlocksFuel (splitLinesKeepAux [] full_diff.data).length
            (splitLinesKeepAux [] full_diff.data)).filter
          (blockCaptured (normSlashes file_path.data))).flatten).flatten⟩ := by
  show (⟨(List.foldl (extractStep (normSlashes file_path.data)) ([], false)
      (splitLinesKeepAux [] full_diff.data)).1⟩ : String) = _
  rw [extract_foldl_blocks (normSlashes file_path.data)
    (splitLinesKeepAux [] full_diff.data).length
    (splitLinesKeepAux [] full_diff.data) [] le_rfl]
  simp

/-- A full commit patch touching both `a.md` and `extra.md`. -/
def sampleDiffC10 : String :=
  "diff --git a/a.md b/a.md\n+x\ndiff --git a/extra.md b/extra.md\n+y\n"

/-- A gateway whose full commit patch is `sampleDiffC10`. -/
def gwC10 : GitGateway :=
  ⟨fun _ => none, "ET", fun _ _ => none, fun _ _ _ => "", fun _ _ => "",
    fun _ => sampleDiffC10⟩

/-- C10: per-commit patch extraction selects diff blocks by substring
containment of the normalized query path in the `diff --git` header line; in
particular querying `a.md` against a patch that also touches `extra.md`
captures the `extra.md` block as well (its header contains `a.md`), while a
path contained in no header captures nothing. -/
theorem extract_file_diff_substring_capture :
    (∀ full_diff file_path : String,
      _extract_file_diff full_diff file_path
        = ⟨(((diffBlocksFuel (splitLinesKeepAux [] full_diff.data).length
              (splitLinesKeepAux [] full_diff.data)).filter
            (blockCaptured (normSlashes file_path.data))).flatten).flatten⟩)
    ∧ _extract_file_diff sampleDiffC10 "a.md" = sampleDiffC10
    ∧ _commit_patch gwC10 "c9" "a.md" = sampleDiffC10
    ∧ _extract_file_diff sampleDiffC10 "b.md" = "" :=
  ⟨extract_file_diff_eq_blocks, by decide, by decide, by decide⟩

end Wikrev
